import Mathlib

/-!
Shallow embedding of the SramAnalyzer tool (sramanalyzer.py).

The tool decodes hex-encoded SRAM memory dumps into bit matrices, caches
them, aggregates them into probability and entropy maps, and compares
cached matrices (difference counts, Hamming distances, bitmap projection).

Modelling conventions:
* a text line is a `List Char` (without its trailing newline);
* numpy `uint8` cells are `Nat` taken modulo 256 where the code wraps;
* numpy `int8` values are `Int` in `[-128, 127]`;
* float arrays of the probability pipeline are modelled over `ℚ` (the
  division `frequency / count` is exact) and entropies over `ℝ`;
* Python exceptions become `Option` / `Except` error values.
-/

/-- The character class `[0-9A-Z]` used by the record regex
`^:10[0-9A-Z]{6}([0-9A-Z]*)[0-9A-Z]{2}$` in `preprocess`. -/
def isRegexChar (c : Char) : Bool :=
  decide (('0' ≤ c ∧ c ≤ '9') ∨ ('A' ≤ c ∧ c ≤ 'Z'))

/-- `re.match` of `^:10[0-9A-Z]{6}([0-9A-Z]*)[0-9A-Z]{2}$` against a line.
A match needs at least 11 characters (3 marker + 6 address/type + 0 payload
+ 2 checksum), the literal prefix `:10`, and every later character in the
class; the greedy group captures everything between position 9 and the two
trailing checksum characters. Returns the captured payload group. -/
def recordMatch (line : List Char) : Option (List Char) :=
  if 11 ≤ line.length ∧ line.take 3 = [':', '1', '0'] ∧ (line.drop 3).all isRegexChar
  then some ((line.drop 9).take (line.length - 11))
  else none

/-- Value of one hexadecimal digit, as accepted by `binascii.unhexlify`. -/
def hexVal (c : Char) : Option Nat :=
  let n := c.toNat
  if 48 ≤ n ∧ n ≤ 57 then some (n - 48)
  else if 65 ≤ n ∧ n ≤ 70 then some (n - 55)
  else if 97 ≤ n ∧ n ≤ 102 then some (n - 87)
  else none

/-- `binascii.unhexlify`: pairs of hex digits to bytes; `none` models the
`binascii.Error` raised on an odd-length or non-hexadecimal input. -/
def unhexlify : List Char → Option (List Nat)
  | [] => some []
  | [_] => none
  | c1 :: c2 :: rest =>
    match hexVal c1, hexVal c2, unhexlify rest with
    | some hi, some lo, some bs => some ((16 * hi + lo) :: bs)
    | _, _, _ => none

/-- `format(b, '08b')` for a byte `b < 256`: the eight bits of `b`,
most significant first, as 0/1 values. -/
def byteToBits (b : Nat) : List Nat :=
  [b / 128 % 2, b / 64 % 2, b / 32 % 2, b / 16 % 2, b / 8 % 2, b / 4 % 2,
   b / 2 % 2, b % 2]

/-- Reassemble a byte from its bits, most significant first. -/
def bitsToByte (bits : List Nat) : Nat :=
  bits.foldl (fun acc bit => 2 * acc + bit) 0

/-- Expansion of a byte row into its bit row, as built by
`"".join(format(b, '08b') for b in unhexlify(byteline))`. -/
def bytesToBits (bs : List Nat) : List Nat :=
  (bs.map byteToBits).flatten

/-- Inverse direction of the expansion: regroup a bit string into bytes,
eight bits at a time, most significant first. -/
def bitsToBytes : List Nat → List Nat
  | b7 :: b6 :: b5 :: b4 :: b3 :: b2 :: b1 :: b0 :: rest =>
    bitsToByte [b7, b6, b5, b4, b3, b2, b1, b0] :: bitsToBytes rest
  | _ => []

/-- Decoding of one matched payload group into its bit row. -/
def lineBits (payload : List Char) : Option (List Nat) :=
  (unhexlify payload).map (fun bs => (bs.map byteToBits).flatten)

/-- The line loop of `preprocess` over one dump: matching lines are decoded
and collected in source order, non-matching lines are skipped; a matched
payload that `unhexlify` rejects aborts the whole dump (`none`). -/
def decodeLines : List (List Char) → Option (List (List Nat))
  | [] => some []
  | l :: rest =>
    match recordMatch l with
    | none => decodeLines rest
    | some payload =>
      match lineBits payload with
      | none => none
      | some row => (decodeLines rest).map (fun rows => row :: rows)

/-- Per-line contribution to the bit matrix: the decoded bit row of a
matching line, `none` for a skipped line. -/
def lineToRow (l : List Char) : Option (List Nat) :=
  (recordMatch l).bind lineBits

/-- Errors of `preprocess` on one dump: the unguarded `sram_lines[0]` on an
empty row list (`IndexError`), or a `binascii.Error` from `unhexlify`. -/
inductive PreprocErr
  | indexError
  | decodeError
deriving DecidableEq, Repr

/-- `preprocess` on the lines of one dump file: decode all matching lines,
then compute `len(sram_lines) * len(sram_lines[0])` — which indexes an
empty list when no line matched — and return the matrix to be saved
together with that size. -/
def preprocessDump (lines : List (List Char)) :
    Except PreprocErr (List (List Nat) × Nat) :=
  match decodeLines lines with
  | none => .error .decodeError
  | some rows =>
    match rows with
    | [] => .error .indexError
    | r :: _ => .ok (rows, rows.length * r.length)

/-- The only failure `analyze`'s aggregation can actually reach in the
model: the `TypeError` raised by `probability_matrix = frequency_matrix /
len(...)` when `frequency_matrix` is still `None`. It is an uncaught
exception (the `except TypeError` around the load loop does not cover the
division), not a distinct "no cached data" signal. -/
inductive AggErr
  | uncaughtTypeError
deriving DecidableEq, Repr

/-- Elementwise wrapping `uint8` addition of two matrices, as performed by
`frequency_matrix += numpy.load(cf)` on `uint8` arrays. -/
def addU8 (a b : List (List Nat)) : List (List Nat) :=
  List.zipWith (fun r1 r2 => List.zipWith (fun x y => (x + y) % 256) r1 r2) a b

/-- The accumulation loop of `analyze`: `frequency_matrix` starts as
`None`, becomes the first loaded matrix, then accumulates the rest; `none`
exactly when the cached-matrix list is empty. -/
def freqMatrix : List (List (List Nat)) → Option (List (List Nat))
  | [] => none
  | m :: rest => some (rest.foldl addU8 m)

/-- The aggregation step of `analyze`: frequency matrix divided by the
number of cached matrices. On an empty list `frequency_matrix` is `None`
and the division raises the uncaught `TypeError`. -/
def aggregate (mats : List (List (List Nat))) : Except AggErr (List (List ℚ)) :=
  match freqMatrix mats with
  | none => .error .uncaughtTypeError
  | some f => .ok (f.map (fun r => r.map (fun x : Nat => (x : ℚ) / (mats.length : ℚ))))

/-- Wrapping `uint8` subtraction: `image1 - image2` on `uint8` arrays. -/
def uint8sub (x y : Nat) : Nat := (x % 256 + 256 - y % 256) % 256

/-- Reinterpretation of a `uint8` cell as numpy `int8`
(`numpy.array(..., dtype=numpy.int8)`). -/
def toInt8 (d : Nat) : Int :=
  if d % 256 < 128 then (d % 256 : Int) else (d % 256 : Int) - 256

/-- `numpy.abs` on an `int8` value, with the overflow case
`abs(-128) = -128` of two's-complement arithmetic. -/
def npAbsInt8 (x : Int) : Int := if x = -128 then -128 else x.natAbs

/-- One cell of `numpy.abs(numpy.array(image1 - image2, dtype=numpy.int8))`. -/
def cellDiff (x y : Nat) : Int := npAbsInt8 (toInt8 (uint8sub x y))

/-- `num_of_diff_bits = numpy.sum(difference)`: numpy sums the `int8` cells
into a 64-bit accumulator, modelled as an exact integer sum. -/
def diffCount (a b : List (List Nat)) : Int :=
  (List.zipWith (fun r1 r2 => (List.zipWith cellDiff r1 r2).sum) a b).sum

/-- One term of the Hamming loop: `numpy.count_nonzero(l1 != l2)` on two
equal-width bit rows. -/
def rowHD (l1 l2 : List Nat) : Nat :=
  ((List.zip l1 l2).filter (fun p => decide (p.1 ≠ p.2))).length

/-- The statistic of the `hamming` command on a fixed pair of cached
matrices: per-row disagreement counts summed over `zip(bitmap1, bitmap2)`
and divided by `len(bitmap1)` — the row count of the FIRST matrix; `none`
models the `ZeroDivisionError` when the first matrix has no rows. -/
def hammingAvg (b1 b2 : List (List Nat)) : Option ℚ :=
  if b1.length = 0 then none
  else some (((List.zip b1 b2).map (fun p => (rowHD p.1 p.2 : ℚ))).sum / (b1.length : ℚ))

/-- The resample loop of `diff` and `hamming`: starting from the sentinel
pair `(-1, -1)` the loop keeps drawing `randint(0, n-1)` twice per
iteration until the two draws differ. The draws are given by an oracle
`stream` of pairs (iteration `k` draws `stream k`); `fuel` bounds how many
iterations are observed, `none` meaning the loop is still running. -/
def selectDistinct (stream : Nat → Nat × Nat) : Nat → Nat → Option (Nat × Nat)
  | _, 0 => none
  | k, fuel + 1 =>
    if (stream k).1 = (stream k).2 then selectDistinct stream (k + 1) fuel
    else some (stream k)

/-- Splitting a flat buffer into rows of `c` cells each: numpy
`reshape(r, c)` after the element-count check has passed. -/
def chunkRows {α : Type} (c : Nat) : List α → List (List α)
  | [] => []
  | x :: xs =>
    if c = 0 then []
    else ((x :: xs).take c) :: chunkRows c ((x :: xs).drop c)
termination_by l => l.length
decreasing_by simp; omega

/-- numpy failures of the projection paths: the `ValueError` of a `reshape`
whose target element count disagrees with the array, and the explicit
"Invalid resolution!" `Exception` of the resolution check. -/
inductive NpErr
  | reshapeError
  | invalidResolution
deriving DecidableEq, Repr

/-- The projection path of `diff`: the raveled difference pattern is packed
into RGB triples `(0, x*255, 0)` (`uint8` fields), reshaped to the
hard-coded `(128, 6144)`, checked against the requested resolution, and
finally reshaped to `(res0, res1)`. The first reshape raises a numpy
`ValueError` whenever the pattern does not hold exactly `128 * 6144`
cells. -/
def projectDiff (difference : List Nat) (w h : Nat) :
    Except NpErr (List (List (Nat × Nat × Nat))) :=
  let rgb := difference.map (fun x => ((0 : Nat), x * 255 % 256, (0 : Nat)))
  if rgb.length = 128 * 6144 then
    if w * h ≠ 128 * 6144 then .error .invalidResolution
    else .ok (chunkRows h rgb)
  else .error .reshapeError

/-- Total element count of a 2-D map: `shape[0] * shape[1]`. -/
def totalCells (m : List (List ℚ)) : Nat := m.length * (m.headD []).length

/-- The projection of `cumulative` (and `simple`): compare
`res[0]*res[1]` with `shape[0]*shape[1]`, raise the "Invalid resolution!"
`Exception` on mismatch, otherwise reshape the map to the requested
resolution. -/
def projectMap (m : List (List ℚ)) (w h : Nat) : Except NpErr (List (List ℚ)) :=
  if w * h ≠ totalCells m then .error .invalidResolution
  else .ok (chunkRows h m.flatten)

/-- The per-cell entropy of `analyze`:
`- p*log2(p) - (1-p)*log2(1-p)`, computed under `numpy.errstate` (the
`log2(0)` warning suppressed) followed by `numpy.nan_to_num`, which turns
the `nan` arising at `p ∈ {0, 1}` (from `0 * (-inf)`) into `0` instead of
propagating it. Floats are modelled as real numbers. -/
noncomputable def entropyCell (p : ℝ) : ℝ :=
  if p = 0 ∨ p = 1 then 0
  else -p * Real.logb 2 p - (1 - p) * Real.logb 2 (1 - p)

/-- All cells of a matrix are bounded by `k`. -/
def matLe (k : Nat) (m : List (List Nat)) : Prop := ∀ r ∈ m, ∀ x ∈ r, x ≤ k

/-- The entropy map of `analyze`: the per-cell entropy of every cell of the
probability map. -/
noncomputable def entropyMap (probs : List (List ℚ)) : List (List ℝ) :=
  probs.map (fun r => r.map (fun q : ℚ => entropyCell (q : ℝ)))

example : recordMatch (":1000000000112233445566778899AABBCCDDEEFFC8".toList)
    = some ("00112233445566778899AABBCCDDEEFF".toList) := by decide
example : recordMatch (":10000000AABBCC".toList) = some ("AABB".toList) := by decide
example : recordMatch ("hello".toList) = none := by decide
example : unhexlify ("AB".toList) = some [171] := by decide
example : bitsToBytes (bytesToBits [171, 5]) = [171, 5] := by decide

/-- `unhexlify` halves the length: each byte consumes two hex characters. -/
theorem unhexlify_length : ∀ cs bs, unhexlify cs = some bs → 2 * bs.length = cs.length
  | [], bs, h => by simp [unhexlify] at h; simp [← h]
  | [_], bs, h => by simp [unhexlify] at h
  | c1 :: c2 :: rest, bs, h => by
    unfold unhexlify at h
    cases h1 : hexVal c1 <;> cases h2 : hexVal c2 <;>
      cases hr : unhexlify rest <;> simp [h1, h2, hr] at h
    have := unhexlify_length rest _ hr
    simp [← h]
    omega

/-- A matched payload group is everything strictly between the 9 leading
characters and the 2 trailing checksum characters. -/
theorem recordMatch_length {line payload : List Char}
    (h : recordMatch line = some payload) : payload.length + 11 = line.length := by
  unfold recordMatch at h
  split at h
  · rename_i hc
    obtain ⟨hlen, -, -⟩ := hc
    simp only [Option.some.injEq] at h
    subst h
    simp [List.length_take, List.length_drop]
    omega
  · exact absurd h (by simp)

/-- C1 counterexample: the line `:10000000AABBCC` is accepted by the record
regex although its payload group `AABB` has 4 characters, not 32, and it
decodes to 2 bytes, not 16 — so the decoder does not enforce the fixed
32-hex-character payload shape the claim states. -/
theorem C1_counterexample :
    recordMatch (":10000000AABBCC".toList) = some ("AABB".toList) ∧
    (unhexlify ("AABB".toList)).map List.length = some 2 ∧ (2 : Nat) ≠ 16 := by
  refine ⟨by decide, by decide, by decide⟩

/-- C1 (amended): the Record Decoder accepts exactly the lines of shape
`:10` + six `[0-9A-Z]` characters + an arbitrary-length `[0-9A-Z]*` payload
group + two checksum characters; a decoded payload holds half as many bytes
as the group has characters, hence exactly 16 bytes precisely on 43-character
accepted lines (32 payload characters); lines that do not match are skipped
without affecting the decoded rows. -/
theorem C1_record_shape :
    (∀ line payload, recordMatch line = some payload →
      payload.length + 11 = line.length ∧
      ∀ bs, unhexlify payload = some bs →
        2 * bs.length = payload.length ∧ (line.length = 43 → bs.length = 16)) ∧
    (∀ line rest, recordMatch line = none →
      decodeLines (line :: rest) = decodeLines rest) := by
  constructor
  · intro line payload h
    refine ⟨recordMatch_length h, ?_⟩
    intro bs hbs
    have h2 := unhexlify_length payload bs hbs
    have h1 := recordMatch_length h
    exact ⟨h2, by omega⟩
  · intro line rest h
    simp [decodeLines, h]

/-- C1 witness: instantiates `C1_record_shape` on a genuine 43-character
Intel-HEX-style record line and on a skipped line. -/
theorem C1_record_shape_witness :
    ("00112233445566778899AABBCCDDEEFF".toList).length + 11 =
      (":1000000000112233445566778899AABBCCDDEEFFC8".toList).length ∧
    ([0, 17, 34, 51, 68, 85, 102, 119, 136, 153, 170, 187, 204, 221, 238, 255] : List Nat).length = 16 ∧
    decodeLines ["GG".toList] = decodeLines [] :=
  ⟨(C1_record_shape.1 (":1000000000112233445566778899AABBCCDDEEFFC8".toList)
      ("00112233445566778899AABBCCDDEEFF".toList) (by decide)).1,
   ((C1_record_shape.1 (":1000000000112233445566778899AABBCCDDEEFFC8".toList)
      ("00112233445566778899AABBCCDDEEFF".toList) (by decide)).2
      ([0, 17, 34, 51, 68, 85, 102, 119, 136, 153, 170, 187, 204, 221, 238, 255])
      (by decide)).2 (by decide),
   C1_record_shape.2 ("GG".toList) [] (by decide)⟩

/-- Reassembling the eight bits of a byte `b < 256` gives back `b`. -/
theorem bitsToByte_byteToBits {b : Nat} (hb : b < 256) :
    bitsToByte (byteToBits b) = b := by
  simp [byteToBits, bitsToByte, List.foldl]
  omega

/-- One byte expands to exactly eight bits. -/
theorem byteToBits_length (b : Nat) : (byteToBits b).length = 8 := rfl

/-- A row of bytes expands to eight bits per byte. -/
theorem bytesToBits_length (bs : List Nat) : (bytesToBits bs).length = 8 * bs.length := by
  induction bs with
  | nil => rfl
  | cons b bs ih =>
    have h : bytesToBits (b :: bs) = byteToBits b ++ bytesToBits bs := by
      simp [bytesToBits]
    rw [h, List.length_append, byteToBits_length, ih]
    simp [List.length_cons]
    ring

/-- Peeling one expanded byte off the front of a bit string. -/
theorem bitsToBytes_byteToBits_append {b : Nat} (hb : b < 256) (rest : List Nat) :
    bitsToBytes (byteToBits b ++ rest) = b :: bitsToBytes rest := by
  show bitsToBytes (b / 128 % 2 :: b / 64 % 2 :: b / 32 % 2 :: b / 16 % 2 ::
    b / 8 % 2 :: b / 4 % 2 :: b / 2 % 2 :: b % 2 :: rest) = b :: bitsToBytes rest
  rw [bitsToBytes]
  exact congrArg (· :: bitsToBytes rest) (bitsToByte_byteToBits hb)

/-- Byte-to-bit expansion round-trips for any row of genuine bytes. -/
theorem bitsToBytes_bytesToBits {bs : List Nat} (hb : ∀ b ∈ bs, b < 256) :
    bitsToBytes (bytesToBits bs) = bs := by
  induction bs with
  | nil => rfl
  | cons b bs ih =>
    have hbs : bytesToBits (b :: bs) = byteToBits b ++ bytesToBits bs := by
      simp [bytesToBits]
    rw [hbs, bitsToBytes_byteToBits_append (hb b (by simp)),
      ih (fun x hx => hb x (by simp [hx]))]

/-- When the whole dump decodes, the matrix rows are exactly the decoded
rows of the matching lines, in source order. -/
theorem decodeLines_eq_filterMap :
    ∀ lines rows, decodeLines lines = some rows → rows = lines.filterMap lineToRow := by
  intro lines
  induction lines with
  | nil => intro rows h; simp [decodeLines] at h; simp [← h]
  | cons l rest ih =>
    intro rows h
    unfold decodeLines at h
    cases hm : recordMatch l with
    | none =>
      simp only [hm] at h
      simp [List.filterMap_cons, lineToRow, hm]
      exact ih rows h
    | some payload =>
      simp only [hm] at h
      cases hb : lineBits payload with
      | none => simp only [hb] at h; exact absurd h (by simp)
      | some row =>
        simp only [hb] at h
        cases hr : decodeLines rest with
        | none => simp only [hr] at h; exact absurd h (by simp)
        | some rs =>
          simp only [hr] at h
          simp at h
          subst h
          simp [List.filterMap_cons, lineToRow, hm, hb]
          exact ih rs hr

/-- C8: each byte row of 16 genuine bytes expands most-significant-bit-first
into exactly 128 single-bit values, the byte-to-bit-to-byte round trip
recovers the 16 original bytes, and the rows of a decoded dump are stacked
in source order (one row per matching line, in line order). -/
theorem C8_bit_expansion :
    (∀ bs : List Nat, (∀ b ∈ bs, b < 256) → bs.length = 16 →
      (bytesToBits bs).length = 128 ∧ bitsToBytes (bytesToBits bs) = bs) ∧
    (∀ lines rows, decodeLines lines = some rows → rows = lines.filterMap lineToRow) := by
  constructor
  · intro bs hb hlen
    exact ⟨by rw [bytesToBits_length, hlen], bitsToBytes_bytesToBits hb⟩
  · exact decodeLines_eq_filterMap

/-- C8 witness: the round trip on a concrete 16-byte row and the row
stacking on a concrete one-record dump. -/
theorem C8_bit_expansion_witness :
    (bytesToBits [0, 17, 34, 51, 68, 85, 102, 119, 136, 153, 170, 187, 204, 221, 238, 255]).length = 128 ∧
    bitsToBytes (bytesToBits [0, 17, 34, 51, 68, 85, 102, 119, 136, 153, 170, 187, 204, 221, 238, 255]) =
      [0, 17, 34, 51, 68, 85, 102, 119, 136, 153, 170, 187, 204, 221, 238, 255] ∧
    [[1, 0, 1, 0, 1, 0, 1, 1]] = [(":10000000AB12".toList)].filterMap lineToRow :=
  ⟨(C8_bit_expansion.1 [0, 17, 34, 51, 68, 85, 102, 119, 136, 153, 170, 187, 204, 221, 238, 255]
      (by decide) (by decide)).1,
   (C8_bit_expansion.1 [0, 17, 34, 51, 68, 85, 102, 119, 136, 153, 170, 187, 204, 221, 238, 255]
      (by decide) (by decide)).2,
   C8_bit_expansion.2 [(":10000000AB12".toList)] [[1, 0, 1, 0, 1, 0, 1, 1]] (by decide)⟩

/-- C10: a dump in which no line matches the record regex makes
`preprocess` hit the unguarded `len(sram_lines[0])` on an empty list (an
`IndexError`), and a dump yields a cached matrix only when at least one of
its lines matches the record shape. -/
theorem C10_empty_dump_index_error :
    ∀ lines : List (List Char),
      ((∀ l ∈ lines, recordMatch l = none) →
        preprocessDump lines = .error .indexError) ∧
      (∀ m, preprocessDump lines = .ok m → ∃ l ∈ lines, (recordMatch l).isSome) := by
  intro lines
  have hall : (∀ l ∈ lines, recordMatch l = none) → decodeLines lines = some [] := by
    induction lines with
    | nil => intro _; rfl
    | cons l rest ih =>
      intro hl
      unfold decodeLines
      rw [hl l (by simp)]
      exact ih (fun x hx => hl x (by simp [hx]))
  constructor
  · intro hnone
    unfold preprocessDump
    rw [hall hnone]
  · intro m hok
    by_contra hno
    push_neg at hno
    have hnone : ∀ l ∈ lines, recordMatch l = none := by
      intro l hl
      have hcase := hno l hl
      cases hmm : recordMatch l with
      | none => rfl
      | some p => rw [hmm] at hcase; simp at hcase
    have herr : preprocessDump lines = .error .indexError := by
      unfold preprocessDump
      rw [hall hnone]
    rw [herr] at hok
    exact absurd hok (by simp)

/-- C10 witness: a two-line dump with no record-shaped line fails with the
`IndexError`. -/
theorem C10_empty_dump_index_error_witness :
    preprocessDump [("hello".toList), (":banana".toList)] = .error .indexError :=
  (C10_empty_dump_index_error [("hello".toList), (":banana".toList)]).1 (by decide)

/-- C4 counterexample: invoked on an empty matrix list, the aggregation does
not signal a distinct "no cached data" error — it crashes with the uncaught
`TypeError` from `None / len(...)`. -/
theorem C4_counterexample : aggregate [] = .error .uncaughtTypeError := rfl

/-- C4 (amended): on an empty list of cached bit matrices the Aggregation
Engine fails with the uncaught `TypeError` raised by dividing `None` by the
matrix count — and that crash happens exactly on the empty list. -/
theorem C4_empty_aggregation :
    ∀ mats, aggregate mats = .error .uncaughtTypeError ↔ mats = [] := by
  intro mats
  cases mats with
  | nil => simp [aggregate, freqMatrix]
  | cons m rest => simp [aggregate, freqMatrix]

/-- On 0/1 cells the absolute `int8` difference is the inequality
indicator. -/
theorem cellDiff_01 {x y : Nat} (hx : x ≤ 1) (hy : y ≤ 1) :
    cellDiff x y = if x = y then 0 else 1 := by
  interval_cases x <;> interval_cases y <;> decide

/-- Bounds and the zero-iff characterization for one row of the difference
pattern. -/
theorem rowDiff_bounds : ∀ (r1 r2 : List Nat), r1.length = r2.length →
    (∀ x ∈ r1, x ≤ 1) → (∀ x ∈ r2, x ≤ 1) →
    0 ≤ (List.zipWith cellDiff r1 r2).sum ∧
    (List.zipWith cellDiff r1 r2).sum ≤ (r1.length : Int) ∧
    ((List.zipWith cellDiff r1 r2).sum = 0 ↔ r1 = r2)
  | [], [], _, _, _ => by simp
  | [], y :: r2, h, _, _ => by simp at h
  | x :: r1, [], h, _, _ => by simp at h
  | x :: r1, y :: r2, h, h1, h2 => by
    have hx : x ≤ 1 := h1 x (by simp)
    have hy : y ≤ 1 := h2 y (by simp)
    obtain ⟨ih0, ih1, ih2⟩ := rowDiff_bounds r1 r2 (by simpa using h)
      (fun z hz => h1 z (by simp [hz])) (fun z hz => h2 z (by simp [hz]))
    have hcell := cellDiff_01 hx hy
    simp only [List.zipWith_cons_cons, List.sum_cons, List.length_cons]
    by_cases hxy : x = y
    · rw [hcell, if_pos hxy]
      refine ⟨by linarith, by push_cast; linarith, ?_⟩
      rw [zero_add, ih2]
      simp [hxy]
    · rw [hcell, if_neg hxy]
      refine ⟨by linarith, by push_cast; linarith, ?_⟩
      constructor
      · intro h0
        exact absurd h0 (by linarith)
      · intro he
        simp at he
        exact absurd he.1 hxy

/-- Bounds and the zero-iff characterization for the whole difference
pattern of two equal-shape 0/1 matrices. -/
theorem matDiff_bounds : ∀ (a b : List (List Nat)) (C : Nat),
    a.length = b.length →
    (∀ r ∈ a, r.length = C) → (∀ r ∈ b, r.length = C) →
    (∀ r ∈ a, ∀ x ∈ r, x ≤ 1) → (∀ r ∈ b, ∀ x ∈ r, x ≤ 1) →
    0 ≤ diffCount a b ∧ diffCount a b ≤ (a.length : Int) * (C : Int) ∧
    (diffCount a b = 0 ↔ a = b)
  | [], [], C, _, _, _, _, _ => by simp [diffCount]
  | [], r :: b, C, h, _, _, _, _ => by simp at h
  | r :: a, [], C, h, _, _, _, _ => by simp at h
  | r1 :: a, r2 :: b, C, h, haC, hbC, ha01, hb01 => by
    have hlen : r1.length = r2.length := by
      rw [haC r1 (by simp), hbC r2 (by simp)]
    obtain ⟨hr0, hr1, hr2⟩ := rowDiff_bounds r1 r2 hlen
      (ha01 r1 (by simp)) (hb01 r2 (by simp))
    obtain ⟨ih0, ih1, ih2⟩ := matDiff_bounds a b C (by simpa using h)
      (fun r hrr => haC r (by simp [hrr])) (fun r hrr => hbC r (by simp [hrr]))
      (fun r hrr => ha01 r (by simp [hrr])) (fun r hrr => hb01 r (by simp [hrr]))
    have hC : (r1.length : Int) = (C : Int) := by
      rw [haC r1 (by simp)]
    simp only [diffCount, List.zipWith_cons_cons, List.sum_cons,
      List.length_cons] at ih0 ih1 ih2 ⊢
    refine ⟨by linarith, by push_cast; nlinarith [hr1, ih1, hC], ?_⟩
    constructor
    · intro h0
      have hrow : (List.zipWith cellDiff r1 r2).sum = 0 := by linarith
      have hrest : (List.zipWith (fun x y => (List.zipWith cellDiff x y).sum) a b).sum = 0 := by
        linarith
      simp [hr2.mp hrow, ih2.mp hrest]
    · intro he
      simp at he
      rw [← hr2] at he
      have := ih2.mpr he.2
      linarith [he.1, this]

/-- C5: for two equal-shape (R, C) matrices with 0/1 cells, the scalar
differing-bit count of the Comparison Engine is between 0 and R*C, and is
zero exactly when the two matrices are elementwise identical. -/
theorem C5_diff_count (a b : List (List Nat)) (R C : Nat)
    (haR : a.length = R) (hbR : b.length = R)
    (haC : ∀ r ∈ a, r.length = C) (hbC : ∀ r ∈ b, r.length = C)
    (ha01 : ∀ r ∈ a, ∀ x ∈ r, x ≤ 1) (hb01 : ∀ r ∈ b, ∀ x ∈ r, x ≤ 1) :
    0 ≤ diffCount a b ∧ diffCount a b ≤ (R : Int) * (C : Int) ∧
    (diffCount a b = 0 ↔ a = b) := by
  subst haR
  exact matDiff_bounds a b C (by rw [hbR]) haC hbC ha01 hb01

/-- C5 witness: the bounds and zero-iff characterization on a concrete
1-by-2 pair differing in one cell. -/
theorem C5_diff_count_witness :
    0 ≤ diffCount [[0, 1]] [[1, 1]] ∧
    diffCount [[0, 1]] [[1, 1]] ≤ ((1 : Nat) : Int) * ((2 : Nat) : Int) ∧
    (diffCount [[0, 1]] [[1, 1]] = 0 ↔ ([[0, 1]] : List (List Nat)) = [[1, 1]]) :=
  C5_diff_count [[0, 1]] [[1, 1]] 1 2 (by decide) (by decide) (by decide)
    (by decide) (by decide) (by decide)

/-- The row disagreement count does not depend on the argument order. -/
theorem rowHD_comm (l1 l2 : List Nat) : rowHD l1 l2 = rowHD l2 l1 := by
  unfold rowHD
  rw [← List.zip_swap l2 l1, List.filter_map, List.length_map]
  congr 1
  apply List.filter_congr
  intro p _
  simp [Function.comp, ne_comm]

/-- C9 counterexample: with matrices of different row counts the divisor is
the first argument's row count, so swapping the arguments changes the
result — 1 differing bit over 2 rows gives 1/2 one way and 1/3 the other. -/
theorem C9_counterexample :
    hammingAvg [[0, 0], [0, 1]] [[0, 0], [0, 0], [0, 0]] ≠
      hammingAvg [[0, 0], [0, 0], [0, 0]] [[0, 0], [0, 1]] := by
  have h1 : hammingAvg [[0, 0], [0, 1]] [[0, 0], [0, 0], [0, 0]] = some (1 / 2) := by
    simp [hammingAvg, rowHD, List.zip]
  have h2 : hammingAvg [[0, 0], [0, 0], [0, 0]] [[0, 0], [0, 1]] = some (1 / 3) := by
    simp [hammingAvg, rowHD, List.zip]
  rw [h1, h2]
  intro hcontra
  have := Option.some.inj hcontra
  norm_num at this

/-- C9 (amended): the Hamming statistic is symmetric in its two matrix
arguments whenever the two matrices have the same row count (as two cached
matrices of one device pair with equal geometry do); the zipped per-row
disagreement counts are themselves order-independent. -/
theorem C9_hamming_symmetric (b1 b2 : List (List Nat))
    (hlen : b1.length = b2.length)
    (_hrows : ∀ p ∈ List.zip b1 b2, p.1.length = p.2.length) :
    hammingAvg b1 b2 = hammingAvg b2 b1 := by
  unfold hammingAvg
  rw [hlen]
  have hsum : ((List.zip b1 b2).map (fun p => (rowHD p.1 p.2 : ℚ))).sum =
      ((List.zip b2 b1).map (fun p => (rowHD p.1 p.2 : ℚ))).sum := by
    rw [← List.zip_swap b2 b1, List.map_map]
    congr 1
    apply List.map_congr_left
    intro p _
    simp [Function.comp, rowHD_comm]
  rw [hsum]

/-- C9 witness: symmetry on a concrete pair of 2-row matrices. -/
theorem C9_hamming_symmetric_witness :
    hammingAvg [[0, 1], [1, 1]] [[1, 1], [0, 1]] =
      hammingAvg [[1, 1], [0, 1]] [[0, 1], [1, 1]] :=
  C9_hamming_symmetric [[0, 1], [1, 1]] [[1, 1], [0, 1]] (by decide) (by decide)

/-- C2: with a candidate pool of exactly one cached artifact every
`randint(0, 0)` draw is 0, so the two draws of every iteration coincide and
the loop never terminates — no error is ever reported, contradicting the
claim that a pool of fewer than 2 entries is reported as an error. -/
theorem C2_pool_one_never_terminates
    (stream : Nat → Nat × Nat)
    (hstream : ∀ k, (stream k).1 < 1 ∧ (stream k).2 < 1) :
    ∀ k fuel, selectDistinct stream k fuel = none := by
  intro k fuel
  induction fuel generalizing k with
  | zero => rfl
  | succ n ih =>
    unfold selectDistinct
    have h1 := (hstream k).1
    have h2 := (hstream k).2
    rw [if_pos (by omega)]
    exact ih (k + 1)

/-- C2 witness: the all-zero draw stream of a one-element pool makes no
progress within any concrete number of iterations. -/
theorem C2_pool_one_never_terminates_witness :
    selectDistinct (fun _ => (0, 0)) 0 1000 = none :=
  C2_pool_one_never_terminates (fun _ => (0, 0))
    (fun _ => ⟨Nat.one_pos, Nat.one_pos⟩) 0 1000

/-- Reshaping into rows of a positive width loses no cells. -/
theorem chunkRows_flatten {α : Type} (c : Nat) (hc : c ≠ 0) :
    ∀ l : List α, (chunkRows c l).flatten = l := by
  have H : ∀ (n : Nat) (l : List α), l.length ≤ n → (chunkRows c l).flatten = l := by
    intro n
    induction n with
    | zero =>
      intro l hl
      rw [Nat.le_zero, List.length_eq_zero] at hl
      subst hl
      simp [chunkRows]
    | succ n ih =>
      intro l hl
      cases l with
      | nil => simp [chunkRows]
      | cons x xs =>
        rw [chunkRows, if_neg hc, List.flatten_cons,
          ih ((x :: xs).drop c) (by simp at hl ⊢; omega)]
        exact List.take_append_drop c (x :: xs)
  intro l
  exact H l.length l le_rfl

/-- Under a uniform row width the flattened length is the element count. -/
theorem flatten_length_uniform (m : List (List ℚ))
    (hu : ∀ r ∈ m, r.length = (m.headD []).length) :
    m.flatten.length = totalCells m := by
  unfold totalCells
  induction m with
  | nil => rfl
  | cons r rest ih =>
    have hr : r.length = ((r :: rest).headD []).length := by simp
    have hrest : ∀ x ∈ rest, x.length = ((r :: rest).headD []).length :=
      fun x hx => hu x (by simp [hx])
    have ihr : rest.flatten.length = rest.length * ((r :: rest).headD []).length := by
      calc rest.flatten.length = (rest.map List.length).sum := by
            rw [List.length_flatten]
        _ = rest.length * ((r :: rest).headD []).length := by
            rw [List.map_congr_left (fun x hx => hrest x hx)]
            simp [List.map_const, List.sum_replicate, smul_eq_mul]
    simp only [List.flatten_cons, List.length_append, List.length_cons, ihr]
    rw [hr]
    ring

/-- C3: the `diff` projection raises the numpy reshape `ValueError` of the
hard-coded `(128, 6144)` intermediate reshape for EVERY difference pattern
that does not hold exactly `128 * 6144` cells, even when the requested
`width * height` equals the pattern's cell count — while the `cumulative`
projection behaves as claimed: "Invalid resolution!" exactly on a count
mismatch, and on agreement a reshape that preserves every cell. -/
theorem C3_projection :
    (∀ (d : List Nat) (w h : Nat), d.length ≠ 128 * 6144 →
      projectDiff d w h = .error .reshapeError) ∧
    (∀ (m : List (List ℚ)) (w h : Nat), (∀ r ∈ m, r.length = (m.headD []).length) →
      (w * h ≠ totalCells m → projectMap m w h = .error .invalidResolution) ∧
      (∀ out, projectMap m w h = .ok out →
        w * h = totalCells m ∧ out.flatten = m.flatten)) := by
  constructor
  · intro d w h hd
    simp only [projectDiff]
    rw [List.length_map, if_neg hd]
  · intro m w h hu
    constructor
    · intro hne
      unfold projectMap
      rw [if_pos hne]
    · intro out hok
      unfold projectMap at hok
      split at hok
      · exact absurd hok (by simp)
      · rename_i hcond
        push_neg at hcond
        simp only [Except.ok.injEq] at hok
        subst hok
        refine ⟨hcond, ?_⟩
        by_cases hh : h = 0
        · subst hh
          have hlen0 : m.flatten.length = 0 := by
            rw [flatten_length_uniform m hu, ← hcond]
            simp
          rw [List.length_eq_zero.mp hlen0]
          simp [chunkRows]
        · rw [chunkRows_flatten h hh]

/-- C3 witness: a 4-cell difference pattern with the matching 2-by-2
resolution still hits the hard-coded reshape error, and a 2-by-2 map with a
1-by-3 resolution hits the resolution check. -/
theorem C3_projection_witness :
    projectDiff [0, 1, 1, 0] 2 2 = .error .reshapeError ∧
    projectMap [[(0 : ℚ), 1], [1, 0]] 1 3 = .error .invalidResolution :=
  ⟨C3_projection.1 [0, 1, 1, 0] 2 2 (by decide),
   (C3_projection.2 [[(0 : ℚ), 1], [1, 0]] 1 3 (by decide)).1 (by decide)⟩

/-- `entropyCell` is the binary Shannon entropy in bits. -/
theorem entropyCell_eq (p : ℝ) : entropyCell p = Real.binEntropy p / Real.log 2 := by
  unfold entropyCell
  by_cases h : p = 0 ∨ p = 1
  · rcases h with h | h <;> subst h <;> simp
  · rw [if_neg h]
    unfold Real.binEntropy
    rw [Real.log_inv, Real.log_inv, Real.logb, Real.logb]
    ring

/-- C6: the per-cell entropy function vanishes at 0 and at 1 (the undefined
`log2(0)` terms are overridden to 0), takes the value 1 at 1/2, and is
symmetric under `p ↦ 1 - p`. -/
theorem C6_entropy_properties :
    entropyCell 0 = 0 ∧ entropyCell 1 = 0 ∧ entropyCell (1 / 2) = 1 ∧
    ∀ p : ℝ, entropyCell p = entropyCell (1 - p) := by
  refine ⟨by simp [entropyCell], by simp [entropyCell], ?_, ?_⟩
  · rw [entropyCell_eq, one_div, Real.binEntropy_two_inv,
      div_self (Real.log_pos one_lt_two).ne']
  · intro p
    rw [entropyCell_eq, entropyCell_eq, Real.binEntropy_one_sub]

/-- One `uint8` row addition keeps the cell bound growing by at most one
when the added row is a 0/1 row, wraparound included. -/
theorem addRow_le : ∀ {r1 r2 : List Nat} {k : Nat},
    (∀ x ∈ r1, x ≤ k) → (∀ x ∈ r2, x ≤ 1) →
    ∀ x ∈ List.zipWith (fun x y => (x + y) % 256) r1 r2, x ≤ k + 1
  | [], _, _, _, _ => by simp
  | _ :: _, [], _, _, _ => by simp
  | a :: r1, b :: r2, k, h1, h2 => by
    intro x hx
    simp only [List.zipWith_cons_cons, List.mem_cons] at hx
    rcases hx with hx | hx
    · subst hx
      have ha : a ≤ k := h1 a (by simp)
      have hb : b ≤ 1 := h2 b (by simp)
      calc (a + b) % 256 ≤ a + b := Nat.mod_le _ _
        _ ≤ k + 1 := by omega
    · exact addRow_le (fun z hz => h1 z (by simp [hz]))
        (fun z hz => h2 z (by simp [hz])) x hx

/-- One `uint8` matrix accumulation step keeps the cell bound growing by at
most one when the added matrix is a 0/1 matrix. -/
theorem addU8_le : ∀ {a b : List (List Nat)} {k : Nat},
    matLe k a → matLe 1 b → matLe (k + 1) (addU8 a b)
  | [], _, _, _, _ => by simp [addU8, matLe]
  | _ :: _, [], _, _, _ => by simp [addU8, matLe]
  | r1 :: a, r2 :: b, k, ha, hb => by
    intro r hr
    simp only [addU8, List.zipWith_cons_cons, List.mem_cons] at hr
    rcases hr with hr | hr
    · subst hr
      exact addRow_le (ha r1 (by simp)) (hb r2 (by simp))
    · exact addU8_le (a := a) (b := b)
        (fun z hz => ha z (by simp [hz])) (fun z hz => hb z (by simp [hz])) r hr

/-- Accumulating `n` 0/1 matrices on top of an accumulator bounded by `k`
bounds every cell by `k + n`, wraparound included (`x % 256 ≤ x`). -/
theorem foldl_addU8_le : ∀ (rest : List (List (List Nat))) (acc : List (List Nat)) (k : Nat),
    matLe k acc → (∀ m ∈ rest, matLe 1 m) →
    matLe (k + rest.length) (rest.foldl addU8 acc)
  | [], acc, k, hacc, _ => by simpa using hacc
  | m :: rest, acc, k, hacc, hrest => by
    have hstep : matLe (k + 1) (addU8 acc m) :=
      addU8_le hacc (hrest m (by simp))
    have := foldl_addU8_le rest (addU8 acc m) (k + 1) hstep
      (fun x hx => hrest x (by simp [hx]))
    simpa [Nat.add_assoc, Nat.add_comm, Nat.add_left_comm] using this

/-- `entropyCell` stays within `[0, 1]` on `[0, 1]`. -/
theorem entropyCell_mem_unit {p : ℝ} (h0 : 0 ≤ p) (h1 : p ≤ 1) :
    0 ≤ entropyCell p ∧ entropyCell p ≤ 1 := by
  rw [entropyCell_eq]
  have hlog : 0 < Real.log 2 := Real.log_pos one_lt_two
  constructor
  · exact div_nonneg (Real.binEntropy_nonneg h0 h1) hlog.le
  · rw [div_le_one hlog]
    exact Real.binEntropy_le_log_two

/-- C7: for a nonempty list of cached 0/1 bit matrices, every cell of the
aggregated probability map lies in `[0, 1]` — the `uint8` wraparound of
the frequency sum can only shrink a cell below the matrix count — and every
cell of the entropy map lies in `[0, 1]`. -/
theorem C7_prob_entropy_bounds (mats : List (List (List Nat))) (probs : List (List ℚ))
    (hne : mats ≠ []) (h01 : ∀ m ∈ mats, ∀ r ∈ m, ∀ x ∈ r, x ≤ 1)
    (hok : aggregate mats = .ok probs) :
    (∀ r ∈ probs, ∀ q ∈ r, 0 ≤ q ∧ q ≤ 1) ∧
    (∀ r ∈ entropyMap probs, ∀ e ∈ r, 0 ≤ e ∧ e ≤ 1) := by
  have hprob : ∀ r ∈ probs, ∀ q ∈ r, 0 ≤ q ∧ q ≤ 1 := by
    cases mats with
    | nil => exact absurd rfl hne
    | cons m rest =>
      have hfreq : matLe (1 + rest.length) (rest.foldl addU8 m) :=
        foldl_addU8_le rest m 1 (h01 m (by simp))
          (fun x hx => h01 x (by simp [hx]))
      simp only [aggregate, freqMatrix] at hok
      simp only [Except.ok.injEq] at hok
      subst hok
      intro r hr q hq
      obtain ⟨r0, hr0, hrr⟩ := List.mem_map.mp hr
      subst hrr
      obtain ⟨x, hx0, hxx⟩ := List.mem_map.mp hq
      subst hxx
      have hxle : x ≤ 1 + rest.length := hfreq r0 hr0 x hx0
      have hNpos : (0 : ℚ) < ((m :: rest).length : ℚ) := by
        exact_mod_cast Nat.succ_pos rest.length
      refine ⟨by positivity, ?_⟩
      show (x : ℚ) / ((m :: rest).length : ℚ) ≤ 1
      rw [div_le_one hNpos]
      calc (x : ℚ) ≤ ((1 + rest.length : Nat) : ℚ) := by exact_mod_cast hxle
        _ = ((m :: rest).length : ℚ) := by push_cast [List.length_cons]; ring
  refine ⟨hprob, ?_⟩
  intro r hr e he
  obtain ⟨r0, hr0, hrr⟩ := List.mem_map.mp hr
  subst hrr
  obtain ⟨q, hq0, hqq⟩ := List.mem_map.mp he
  subst hqq
  obtain ⟨hq1, hq2⟩ := hprob r0 hr0 q hq0
  exact entropyCell_mem_unit (by exact_mod_cast hq1) (by exact_mod_cast hq2)

/-- C7 witness: two one-cell matrices, one 1 and one 0, aggregate to the
probability 1/2 whose bounds the theorem certifies. -/
theorem C7_prob_entropy_bounds_witness :
    0 ≤ ((1 : ℚ) / 2) ∧ ((1 : ℚ) / 2) ≤ 1 :=
  (C7_prob_entropy_bounds [[[1]], [[0]]] [[(1 : ℚ) / 2]] (by decide) (by decide)
      (by norm_num [aggregate, freqMatrix, addU8])).1
    [(1 : ℚ) / 2] (by simp) ((1 : ℚ) / 2) (by simp)
